import Mathlib

/-!
Verification of the bookmark-to-label normalization and multipage-sequence
reconstruction engine of the Classification_Flask repository.

The Python sources embedded here are src/extract_labels_ultratax.py (title
normalization, roman numeral decoding, destination resolution, best-label
selection, multipage reconstruction and flag passes) and src/app.py (the
label-edit endpoint api_update_label).

Modelling conventions:
  * Strings are lists of characters (Str); Python str.strip and the regex
    class \s are modelled over the ASCII whitespace characters
    space, tab, newline, carriage return, vertical tab and form feed
    (Python also strips some further Unicode whitespace, which no claim
    exercises).
  * str.lower / str.upper are modelled by the ASCII Char.toLower /
    Char.toUpper; the regex class \d by the ASCII digits.
  * Python regexes are compiled to explicit recursive matchers whose
    behaviour on every input agrees with the backtracking search of the
    original pattern (the alternation and greediness analysis is noted at
    each matcher); the dollar anchor is modelled as absolute end of string
    (Python also lets it match just before one final newline, which no
    label produced or accepted by this code contains).
  * Python dicts keyed by page number or by base label are modelled by
    per-key folds; updates for distinct keys commute, so this agrees with
    the dict iteration of the source.
  * Machine integers do not overflow here (Python ints are unbounded);
    page numbers and depths are Nat, the roman decoder total is Int,
    matching the possibly-subtractive arithmetic of the source.
-/

/-- Strings as lists of characters. -/
abbrev Str := List Char

/-- The character list of a string literal. -/
def str (s : String) : Str := s.data

/-- ASCII whitespace, the model of the regex class backslash-s and of the
set stripped by Python str.strip(). -/
def isSpace (c : Char) : Bool :=
  c = ' ' || c = '\t' || c = '\n' || c = '\r' || c = '\x0b' || c = '\x0c'

/-- The lower-case roman numeral letters of the page-marker regex class. -/
def isRoman (c : Char) : Bool :=
  c = 'i' || c = 'v' || c = 'x' || c = 'l' || c = 'c' || c = 'd' || c = 'm'

/-- Python str.strip(): drop whitespace from both ends. -/
def stripCh (l : Str) : Str :=
  ((l.dropWhile isSpace).reverse.dropWhile isSpace).reverse

/-- The dash standardisation of normalize_title: en dash and em dash both
become an ASCII hyphen (title.replace applied character by character). -/
def dashFix (l : Str) : Str :=
  l.map fun c => if c = '–' then '-' else if c = '—' then '-' else c

/-- Value of an upper-case roman symbol, 0 for anything else
(the vals dict lookup with default 0 in roman_to_int). -/
def romanVal (c : Char) : Int :=
  if c = 'I' then 1 else if c = 'V' then 5 else if c = 'X' then 10
  else if c = 'L' then 50 else if c = 'C' then 100 else if c = 'D' then 500
  else if c = 'M' then 1000 else 0

/-- The loop of roman_to_int: accumulator total and previous symbol value. -/
def romanAux : List Char → Int → Int → Int
  | [], total, _ => total
  | c :: cs, total, prev =>
    if prev < romanVal c then romanAux cs (total + romanVal c - 2 * prev) (romanVal c)
    else romanAux cs (total + romanVal c) (romanVal c)

/-- roman_to_int from src/extract_labels_ultratax.py: upper-case the input,
then scan left to right with the subtractive correction. -/
def roman_to_int (s : Str) : Int :=
  romanAux (s.map Char.toUpper) 0 0

/-- A PDF object as page_number_from_dest views it: an indirect reference
(carrying id number and generation), an array of objects, or anything
else (dictionaries, names, numbers...). -/
inductive PdfObj : Type where
  | indirect (idnum gen : Nat) : PdfObj
  | arr (elems : List PdfObj) : PdfObj
  | other : PdfObj

/-- The resolve helper: one get_object step through an indirect reference,
identity on everything else. The store maps (idnum, generation) keys to
objects of the document. -/
def resolveObj (store : Nat × Nat → PdfObj) : PdfObj → PdfObj
  | .indirect i g => store (i, g)
  | o => o

/-- page_number_from_dest from src/extract_labels_ultratax.py: resolve the
destination; when it is a non-empty array whose first element is an
indirect reference found in the page reference map, return that page's
0-based index plus 1, else nothing. -/
def page_number_from_dest (store : Nat × Nat → PdfObj)
    (pageMap : Nat × Nat → Option Nat) (dest : PdfObj) : Option Nat :=
  match resolveObj store dest with
  | .arr (first :: _) =>
    match first with
    | .indirect i g =>
      match pageMap (i, g) with
      | some idx => some (idx + 1)
      | none => none
    | _ => none
  | _ => none

/-- Consume an expected literal character sequence from the front of a
string: some rest when the whole expected list is there, else none. -/
def stripPre : Str → Str → Option Str
  | [], s => some s
  | _ :: _, [] => none
  | c :: cs, d :: ds => if c = d then stripPre cs ds else none

/-- The tail of the page-marker regex after the prefix alternation:
backslash-s* then one group of roman letters or of digits, then
backslash-s* and the end anchor. Greediness analysis: the whitespace run
before the group is maximal (group characters are never whitespace), the
group run is maximal (what follows must be all whitespace, and a shorter
group would leave a non-whitespace group character right after it), and
the roman alternative is tried before the digit alternative exactly as in
the pattern. -/
def matchTailTok (rest : Str) : Option Str :=
  let t := rest.dropWhile isSpace
  let r := t.takeWhile isRoman
  if !r.isEmpty && (t.dropWhile isRoman).all isSpace then some r
  else
    let d := t.takeWhile Char.isDigit
    if !d.isEmpty && (t.dropWhile Char.isDigit).all isSpace then some d
    else none

/-- Try one prefix alternative of the page-marker regex. -/
def tryPre (pre s : Str) : Option Str :=
  match stripPre pre s with
  | some rest => matchTailTok rest
  | none => none

/-- The page-marker regex of normalize_title applied to the lower-cased
title. The backtracking order of the alternation p(age)? / pg / p-dot is:
the literal page, then p, then pg, then p-dot; the first alternative whose
tail also matches wins, as in the original pattern. -/
def pageMarkerTok (low : Str) : Option Str :=
  let s := low.dropWhile isSpace
  match tryPre (str "page") s with
  | some t => some t
  | none =>
    match tryPre (str "p") s with
    | some t => some t
    | none =>
      match tryPre (str "pg") s with
      | some t => some t
      | none => tryPre (str "p.") s

/-- The whitespace-or-hyphen class of the sanitisation regex. -/
def isWsDash (c : Char) : Bool := isSpace c || c = '-'

/-- One re.sub of a character-class-plus pattern with replacement by a
single underscore: every maximal run of class characters becomes one
underscore. The boolean tracks whether the previous character was in the
current run. -/
def collapseRuns (p : Char → Bool) : Bool → Str → Str
  | _, [] => []
  | inRun, c :: cs =>
    if p c then
      if inRun then collapseRuns p true cs else '_' :: collapseRuns p true cs
    else c :: collapseRuns p false cs

/-- normalize_title_basic from src/extract_labels_ultratax.py: commas
become spaces, the result is stripped, whitespace-or-hyphen runs collapse
to single underscores, underscore runs collapse, and leading or trailing
underscores are removed. -/
def normalize_title_basic (title : Str) : Str :=
  let t1 := title.map fun c => if c = ',' then ' ' else c
  let t2 := stripCh t1
  let t3 := collapseRuns isWsDash false t2
  let t4 := collapseRuns (fun c => c = '_') false t3
  ((t4.dropWhile (fun c => c = '_')).reverse.dropWhile (fun c => c = '_')).reverse

/-- The value of a decimal digit string, Python int() on the regex group. -/
def digitsVal (tok : Str) : Nat :=
  tok.foldl (fun a c => 10 * a + (c.toNat - '0'.toNat)) 0

/-- normalize_title from src/extract_labels_ultratax.py: strip, standardise
dashes, lower-case a working copy; a full page-marker match becomes a
P-number label (digits parse directly, roman tokens decode through
roman_to_int, which never fails, so the try/except around it is dead);
anything else goes through the generic sanitisation of the raw string. -/
def normalize_title (title : Str) : Str :=
  let raw := dashFix (stripCh title)
  let low := raw.map Char.toLower
  match pageMarkerTok low with
  | some tok =>
    if tok.all Char.isDigit then str "P" ++ str (Nat.repr (digitsVal tok))
    else str "P" ++ str (Int.repr (roman_to_int tok))
  | none => normalize_title_basic raw

/-- One collected outline entry: normalized or raw label, 1-based page
number, nesting depth. -/
structure LabelEntry where
  label : Str
  page : Nat
  depth : Nat
deriving DecidableEq

/-- One update of the best-for-page dict in build_bookmark_gt: an entry
for the page replaces the stored pair when nothing is stored yet or its
depth is at least the stored depth. -/
def bestStep (p : Nat) (acc : Option (Str × Nat)) (e : LabelEntry) : Option (Str × Nat) :=
  if e.page = p then
    match acc with
    | none => some (e.label, e.depth)
    | some (l0, d0) => if d0 ≤ e.depth then some (e.label, e.depth) else some (l0, d0)
  else acc

/-- The best-for-page selection of build_bookmark_gt, viewed at one page
key: the left fold of bestStep over the entry list. Dict updates for
distinct page keys are independent, so this per-key fold agrees with the
dict loop of the source. -/
def bestForPage (entries : List LabelEntry) (p : Nat) : Option (Str × Nat) :=
  entries.foldl (bestStep p) none

/-- Specification-side selector: the last entry for the page among those
of maximal depth, computed by head recursion -- an earlier entry survives
over the rest of the list only when its depth strictly exceeds the best
depth further right. -/
def lastBest (p : Nat) : List LabelEntry → Option (Str × Nat)
  | [] => none
  | e :: es =>
    match lastBest p es with
    | none => if e.page = p then some (e.label, e.depth) else none
    | some (l, d) => if e.page = p ∧ d < e.depth then some (e.label, e.depth) else some (l, d)

/-- How an accumulator already holding a candidate combines with the
result on the rest of the list, under the depth-at-least rule. -/
def mergeBest (acc r : Option (Str × Nat)) : Option (Str × Nat) :=
  match acc, r with
  | acc, none => acc
  | none, some x => some x
  | some (l0, d0), some (l, d) => if d0 ≤ d then some (l, d) else some (l0, d0)

/-- The per-page output record of build_bookmark_gt. -/
structure PageRecord where
  page : Nat
  family : Str
  label : Str
  auto_label : Str
  updated_label : Bool
  multipage : Bool
  raw_label : Str
deriving DecidableEq

/-- The unlabeled sentinel record a page starts from. -/
def defaultRec (pno : Nat) : PageRecord :=
  { page := pno, family := str "Other", label := str "Other", auto_label := str "Other",
    updated_label := false, multipage := false, raw_label := str "Other" }

/-- The initial page array plus the best-label write-back of
build_bookmark_gt: page number pno gets a fresh record from the deepest
normalized label when one exists (raw_label from the deepest raw label,
defaulting to Other), else keeps the sentinel. The source iterates the
best-for-page dict and writes distinct indices, which is the same array. -/
def selectedPages (total : Nat) (fam : Str) (entries entriesRaw : List LabelEntry) :
    List PageRecord :=
  (List.range total).map fun i =>
    let pno := i + 1
    match bestForPage entries pno with
    | some (lbl, _) =>
      { page := pno, family := fam, label := lbl, auto_label := lbl,
        updated_label := false, multipage := false,
        raw_label :=
          match bestForPage entriesRaw pno with
          | some (rl, _) => rl
          | none => str "Other" }
    | none => defaultRec pno

/-- The bare page-marker pattern P digits, anchored both ends
(upper-case P, at least one digit). -/
def isPageSuffix (lbl : Str) : Bool :=
  match lbl with
  | 'P' :: ds => !ds.isEmpty && ds.all Char.isDigit
  | _ => false

/-- is_base_section of build_bookmark_gt: any label that is neither the
sentinel Other nor a bare page marker. -/
def isBaseSection (lbl : Str) : Bool :=
  !(lbl = str "Other" : Bool) && !isPageSuffix lbl

/-- prefixed_page_match of build_bookmark_gt: a class-limited base
(letters, digits, underscore, parentheses), then underscore P and digits,
anchored both ends. The greedy base takes the latest underscore-P-digits
split, and since the digit group is preceded by the non-digit P it is
exactly the maximal trailing digit run, so the split is unique: strip the
trailing digit run, expect P then underscore before it, and the non-empty
class-limited base before that. -/
def isPfxClassChar (c : Char) : Bool :=
  ('A' ≤ c && c ≤ 'Z') || ('a' ≤ c && c ≤ 'z') || c.isDigit || c = '_' || c = '(' || c = ')'

def prefixedPageMatch (lbl : Str) : Option (Str × Str) :=
  let r := lbl.reverse
  let ds := r.takeWhile Char.isDigit
  match r.dropWhile Char.isDigit with
  | 'P' :: '_' :: rest =>
    if !ds.isEmpty && !rest.isEmpty && rest.all isPfxClassChar then
      some (rest.reverse, ds.reverse)
    else none
  | _ => none

/-- The base-and-number split of apply_multipage_flags: any non-empty base
(the dot-plus group, so no newline), then underscore P and digits, anchored
both ends; the same unique-split argument as for prefixedPageMatch. -/
def splitPSuffix (lbl : Str) : Option (Str × Str) :=
  let r := lbl.reverse
  let ds := r.takeWhile Char.isDigit
  match r.dropWhile Char.isDigit with
  | 'P' :: '_' :: rest =>
    if !ds.isEmpty && !rest.isEmpty && rest.all (fun c => !(c = '\n' : Bool)) then
      some (rest.reverse, ds.reverse)
    else none
  | _ => none

/-- One step of the multipage reconstruction loop of build_bookmark_gt on
one record, with the running prefix: records of another family pass
through untouched without moving the prefix; an already-prefixed label
re-anchors the prefix; a base section becomes base_P1 and anchors; a bare
page marker under a non-empty prefix is rewritten under it; anything else
resets the prefix. A stored empty prefix is falsy in the source, so it
does not ground a rewrite and the step resets. -/
def stepRec (fam : Str) (pfx0 : Option Str) (e : PageRecord) : PageRecord × Option Str :=
  if e.family ≠ fam then (e, pfx0)
  else
    match prefixedPageMatch e.label with
    | some (pre, _) => (e, some pre)
    | none =>
      if isBaseSection e.label then
        let nv := e.label ++ str "_P1"
        ({ e with label := nv, auto_label := nv }, some e.label)
      else
        match pfx0 with
        | some pre =>
          if isPageSuffix e.label && !pre.isEmpty then
            let nv := pre ++ str "_" ++ e.label
            ({ e with label := nv, auto_label := nv }, some pre)
          else (e, none)
        | none => (e, none)

/-- The whole left-to-right reconstruction pass. -/
def reconstructPass (fam : Str) : Option Str → List PageRecord → List PageRecord
  | _, [] => []
  | pfx0, e :: es =>
    (stepRec fam pfx0 e).1 :: reconstructPass fam (stepRec fam pfx0 e).2 es

/-- First pass of apply_multipage_flags, keyed at one base: how many
labels in the list split into this base. -/
def baseCountL (labels : List Str) (b : Str) : Nat :=
  labels.countP fun l =>
    match splitPSuffix l with
    | some (b', _) => decide (b' = b)
    | none => false

/-- The multipage flag apply_multipage_flags computes for one label from
the label list: the label has the base-P-n form and its base occurs on at
least two pages. -/
def multipageFlagL (labels : List Str) (lbl : Str) : Bool :=
  match splitPSuffix lbl with
  | some (b, _) => decide (2 ≤ baseCountL labels b)
  | none => false

/-- apply_multipage_flags from src/extract_labels_ultratax.py: recompute
every record's multipage field from the current labels alone. -/
def apply_multipage_flags (pages : List PageRecord) : List PageRecord :=
  pages.map fun e =>
    { e with multipage := multipageFlagL (pages.map fun r => r.label) e.label }

/-- The in-memory core of build_bookmark_gt after outline collection:
initialise the sentinel array, write back the per-page best labels, run
the reconstruction pass with no active prefix, then compute the
multipage flags. -/
def buildPages (total : Nat) (fam : Str) (entries entriesRaw : List LabelEntry) :
    List PageRecord :=
  apply_multipage_flags
    (reconstructPass fam none (selectedPages total fam entries entriesRaw))

/-- The page-edit loop of api_update_label in src/app.py: set the first
record with the given page number to the new label, mark it user-updated,
leave everything else alone, and stop at the first match. -/
def updateFirstLabel (pno : Nat) (lbl : Str) : List PageRecord → List PageRecord
  | [] => []
  | e :: es =>
    if e.page = pno then { e with label := lbl, updated_label := true } :: es
    else e :: updateFirstLabel pno lbl es

/-- api_update_label from src/app.py on the page array: an empty
(stripped) label or an unknown page number is rejected before anything is
written; otherwise the one record is edited and the multipage flags are
recomputed over the whole array. -/
def api_update_label (pages : List PageRecord) (pno : Nat) (lbl : Str) :
    List PageRecord :=
  if lbl = [] then pages
  else if pages.all (fun e => !(e.page = pno : Bool)) then pages
  else apply_multipage_flags (updateFirstLabel pno lbl pages)

/-- C8: the roman numeral decoder scans left to right; at each symbol it
adds value - 2*previous when the symbol value exceeds the previous one and
value otherwise (previous starts at 0); it is total on all strings,
case-insensitive through the initial upper-casing, and decodes IV, IX and
XL to 4, 9 and 40. -/
theorem roman_decoder_scan :
    (∀ (c : Char) (cs : List Char) (total prev : Int),
        romanAux (c :: cs) total prev =
          romanAux cs
            (if prev < romanVal c then total + romanVal c - 2 * prev
             else total + romanVal c)
            (romanVal c))
    ∧ (∀ s : Str, roman_to_int s = romanAux (s.map Char.toUpper) 0 0)
    ∧ (∀ s : Str, ∃ n : Int, roman_to_int s = n)
    ∧ roman_to_int (str "IV") = 4
    ∧ roman_to_int (str "IX") = 9
    ∧ roman_to_int (str "XL") = 40
    ∧ roman_to_int (str "xl") = 40
    ∧ roman_to_int (str "MCM") = 1900 := by
  refine ⟨fun c cs total prev => ?_, fun s => rfl, fun s => ⟨roman_to_int s, rfl⟩,
    by decide, by decide, by decide, by decide, by decide⟩
  by_cases h : prev < romanVal c <;> simp [romanAux, h]

/-- C9: destination resolution returns the page's 0-based index plus 1
exactly when the resolved destination is a non-empty array whose first
element is an indirect reference whose identity key is in the page map;
on every other input it returns none (it never fails: the function is
total). -/
theorem dest_resolution_total :
    ∀ (store : Nat × Nat → PdfObj) (pageMap : Nat × Nat → Option Nat)
      (dest : PdfObj) (n : Nat),
      page_number_from_dest store pageMap dest = some n ↔
        ∃ (i g : Nat) (rest : List PdfObj) (idx : Nat),
          resolveObj store dest = .arr (.indirect i g :: rest) ∧
          pageMap (i, g) = some idx ∧ n = idx + 1 := by
  intro store pageMap dest n
  unfold page_number_from_dest
  constructor
  · intro h
    cases hres : resolveObj store dest with
    | indirect i g => rw [hres] at h; exact absurd h (by simp)
    | other => rw [hres] at h; exact absurd h (by simp)
    | arr elems =>
      rw [hres] at h
      cases elems with
      | nil => exact absurd h (by simp)
      | cons first rest =>
        cases first with
        | arr es => exact absurd h (by simp)
        | other => exact absurd h (by simp)
        | indirect i g =>
          cases hm : pageMap (i, g) with
          | none => simp [hm] at h
          | some idx =>
            simp only [hm, Option.some.injEq] at h
            exact ⟨i, g, rest, idx, rfl, hm, h.symm⟩
  · rintro ⟨i, g, rest, idx, hres, hm, hn⟩
    rw [hres]
    simp [hm, hn]

lemma dropWhile_cons_false {p : Char → Bool} {c : Char} {l : Str} (h : p c = false) :
    (c :: l).dropWhile p = c :: l := by
  simp [List.dropWhile, h]

lemma dropWhile_cons_true {p : Char → Bool} {c : Char} {l : Str} (h : p c = true) :
    (c :: l).dropWhile p = l.dropWhile p := by
  simp [List.dropWhile, h]

lemma takeWhile_cons_false {p : Char → Bool} {c : Char} {l : Str} (h : p c = false) :
    (c :: l).takeWhile p = [] := by
  simp [List.takeWhile, h]

lemma all_dropWhile_append {p : Char → Bool} (ws t : Str) (h : ws.all p = true) :
    (ws ++ t).dropWhile p = t.dropWhile p := by
  induction ws with
  | nil => rfl
  | cons w ws ih =>
    simp only [List.all_cons, Bool.and_eq_true] at h
    rw [List.cons_append, dropWhile_cons_true h.1, ih h.2]

lemma takeWhile_all_eq_self {p : Char → Bool} (l : Str) (h : l.all p = true) :
    l.takeWhile p = l := by
  induction l with
  | nil => rfl
  | cons c cs ih =>
    simp only [List.all_cons, Bool.and_eq_true] at h
    simp [List.takeWhile, h.1, ih h.2]

lemma dropWhile_all_eq_nil {p : Char → Bool} (l : Str) (h : l.all p = true) :
    l.dropWhile p = [] := by
  induction l with
  | nil => rfl
  | cons c cs ih =>
    simp only [List.all_cons, Bool.and_eq_true] at h
    simp [List.dropWhile, h.1, ih h.2]

lemma all_head {p : Char → Bool} {c : Char} {cs : Str} (h : (c :: cs).all p = true) :
    p c = true := by
  simp only [List.all_cons, Bool.and_eq_true] at h
  exact h.1

lemma all_tail {p : Char → Bool} {c : Char} {cs : Str} (h : (c :: cs).all p = true) :
    cs.all p = true := by
  simp only [List.all_cons, Bool.and_eq_true] at h
  exact h.2

lemma isSpace_cases {c : Char} (h : isSpace c = true) :
    c = ' ' ∨ c = '\t' ∨ c = '\n' ∨ c = '\r' ∨ c = '\x0b' ∨ c = '\x0c' := by
  simp only [isSpace, Bool.or_eq_true, decide_eq_true_eq] at h
  tauto

lemma isRoman_cases {c : Char} (h : isRoman c = true) :
    c = 'i' ∨ c = 'v' ∨ c = 'x' ∨ c = 'l' ∨ c = 'c' ∨ c = 'd' ∨ c = 'm' := by
  simp only [isRoman, Bool.or_eq_true, decide_eq_true_eq] at h
  tauto

lemma digit_not_space {c : Char} (h : c.isDigit = true) : isSpace c = false := by
  cases hs : isSpace c
  · rfl
  · rcases isSpace_cases hs with rfl|rfl|rfl|rfl|rfl|rfl <;> exact absurd h (by decide)

lemma digit_not_roman {c : Char} (h : c.isDigit = true) : isRoman c = false := by
  cases hs : isRoman c
  · rfl
  · rcases isRoman_cases hs with rfl|rfl|rfl|rfl|rfl|rfl|rfl <;> exact absurd h (by decide)

lemma roman_not_space {c : Char} (h : isRoman c = true) : isSpace c = false := by
  rcases isRoman_cases h with rfl|rfl|rfl|rfl|rfl|rfl|rfl <;> rfl

lemma space_ne_a {c : Char} (h : isSpace c = true) : c ≠ 'a' := by
  rcases isSpace_cases h with rfl|rfl|rfl|rfl|rfl|rfl <;> decide

lemma digit_ne_a {c : Char} (h : c.isDigit = true) : c ≠ 'a' := by
  rintro rfl; exact absurd h (by decide)

lemma roman_ne_a {c : Char} (h : isRoman c = true) : c ≠ 'a' := by
  rcases isRoman_cases h with rfl|rfl|rfl|rfl|rfl|rfl|rfl <;> decide

lemma matchTailTok_digits (ws tok : Str) (hws : ws.all isSpace = true)
    (hne : tok ≠ []) (hd : tok.all Char.isDigit = true) :
    matchTailTok (ws ++ tok) = some tok := by
  obtain ⟨c, cs, rfl⟩ := List.exists_cons_of_ne_nil hne
  have hc : c.isDigit = true := all_head hd
  have h1 : (ws ++ c :: cs).dropWhile isSpace = c :: cs := by
    rw [all_dropWhile_append _ _ hws, dropWhile_cons_false (digit_not_space hc)]
  simp only [matchTailTok, h1, takeWhile_cons_false (digit_not_roman hc),
    takeWhile_all_eq_self _ hd, dropWhile_all_eq_nil _ hd]
  simp

lemma matchTailTok_roman (ws tok : Str) (hws : ws.all isSpace = true)
    (hne : tok ≠ []) (hr : tok.all isRoman = true) :
    matchTailTok (ws ++ tok) = some tok := by
  obtain ⟨c, cs, rfl⟩ := List.exists_cons_of_ne_nil hne
  have hc : isRoman c = true := all_head hr
  have h1 : (ws ++ c :: cs).dropWhile isSpace = c :: cs := by
    rw [all_dropWhile_append _ _ hws, dropWhile_cons_false (roman_not_space hc)]
  simp only [matchTailTok, h1, takeWhile_all_eq_self _ hr, dropWhile_all_eq_nil _ hr]
  simp

lemma matchTailTok_dead {c : Char} (l : Str) (h1 : isSpace c = false)
    (h2 : isRoman c = false) (h3 : c.isDigit = false) :
    matchTailTok (c :: l) = none := by
  simp only [matchTailTok, dropWhile_cons_false h1, takeWhile_cons_false h2,
    takeWhile_cons_false h3]
  simp

lemma stripPre_append (pre rest : Str) : stripPre pre (pre ++ rest) = some rest := by
  induction pre with
  | nil => rfl
  | cons c cs ih => simp [stripPre, ih]

lemma stripPre_age_none (ws tok : Str) (hws : ws.all isSpace = true) (hne : tok ≠ [])
    (htok : tok.all Char.isDigit = true ∨ tok.all isRoman = true) :
    stripPre (str "age") (ws ++ tok) = none := by
  cases ws with
  | cons w ws =>
    have hw : isSpace w = true := all_head hws
    have : ('a' = w) = False := by
      simp [(space_ne_a hw).symm]
    simp [str, stripPre, this]
  | nil =>
    obtain ⟨c, cs, rfl⟩ := List.exists_cons_of_ne_nil hne
    have : ('a' = c) = False := by
      rcases htok with h | h
      · have hc : c.isDigit = true := all_head h
        simp [(digit_ne_a hc).symm]
      · have hc : isRoman c = true := all_head h
        simp [(roman_ne_a hc).symm]
    simp [str, stripPre, this]

lemma matchTailTok_tok (ws tok : Str) (hws : ws.all isSpace = true) (hne : tok ≠ [])
    (htok : tok.all Char.isDigit = true ∨ tok.all isRoman = true) :
    matchTailTok (ws ++ tok) = some tok := by
  rcases htok with h | h
  · exact matchTailTok_digits ws tok hws hne h
  · exact matchTailTok_roman ws tok hws hne h

lemma pageMarkerTok_complete (pre ws tok : Str)
    (hpre : pre = str "p" ∨ pre = str "page" ∨ pre = str "pg" ∨ pre = str "p.")
    (hws : ws.all isSpace = true) (hne : tok ≠ [])
    (htok : tok.all Char.isDigit = true ∨ tok.all isRoman = true) :
    pageMarkerTok (pre ++ (ws ++ tok)) = some tok := by
  have htail := matchTailTok_tok ws tok hws hne htok
  rcases hpre with rfl | rfl | rfl | rfl
  · -- pre = "p": the longer alternative page cannot match, p does
    show pageMarkerTok ('p' :: (ws ++ tok)) = some tok
    have hdrop : ('p' :: (ws ++ tok)).dropWhile isSpace = 'p' :: (ws ++ tok) :=
      dropWhile_cons_false (by decide)
    have hage : stripPre (str "page") ('p' :: (ws ++ tok)) = none := by
      have : stripPre (str "page") ('p' :: (ws ++ tok)) =
          stripPre (str "age") (ws ++ tok) := by simp [str, stripPre]
      rw [this, stripPre_age_none ws tok hws hne htok]
    have hp : stripPre (str "p") ('p' :: (ws ++ tok)) = some (ws ++ tok) := by
      simp [str, stripPre]
    simp only [pageMarkerTok, hdrop, tryPre, hage, hp, htail]
  · -- pre = "page"
    show pageMarkerTok (str "page" ++ (ws ++ tok)) = some tok
    have hdrop : (str "page" ++ (ws ++ tok)).dropWhile isSpace = str "page" ++ (ws ++ tok) :=
      dropWhile_cons_false (by decide)
    simp only [pageMarkerTok, hdrop, tryPre, stripPre_append, htail]
  · -- pre = "pg"
    show pageMarkerTok ('p' :: 'g' :: (ws ++ tok)) = some tok
    have hdrop : ('p' :: 'g' :: (ws ++ tok)).dropWhile isSpace = 'p' :: 'g' :: (ws ++ tok) :=
      dropWhile_cons_false (by decide)
    have hage : stripPre (str "page") ('p' :: 'g' :: (ws ++ tok)) = none := by
      simp [str, stripPre]
    have hp : stripPre (str "p") ('p' :: 'g' :: (ws ++ tok)) = some ('g' :: (ws ++ tok)) := by
      simp [str, stripPre]
    have hdead : matchTailTok ('g' :: (ws ++ tok)) = none :=
      matchTailTok_dead _ (by decide) (by decide) (by decide)
    have hpg : stripPre (str "pg") ('p' :: 'g' :: (ws ++ tok)) = some (ws ++ tok) := by
      simp [str, stripPre]
    simp only [pageMarkerTok, hdrop, tryPre, hage, hp, hdead, hpg, htail]
  · -- pre = "p."
    show pageMarkerTok ('p' :: '.' :: (ws ++ tok)) = some tok
    have hdrop : ('p' :: '.' :: (ws ++ tok)).dropWhile isSpace = 'p' :: '.' :: (ws ++ tok) :=
      dropWhile_cons_false (by decide)
    have hage : stripPre (str "page") ('p' :: '.' :: (ws ++ tok)) = none := by
      simp [str, stripPre]
    have hp : stripPre (str "p") ('p' :: '.' :: (ws ++ tok)) = some ('.' :: (ws ++ tok)) := by
      simp [str, stripPre]
    have hdead : matchTailTok ('.' :: (ws ++ tok)) = none :=
      matchTailTok_dead _ (by decide) (by decide) (by decide)
    have hpg : stripPre (str "pg") ('p' :: '.' :: (ws ++ tok)) = none := by
      simp [str, stripPre]
    have hpd : stripPre (str "p.") ('p' :: '.' :: (ws ++ tok)) = some (ws ++ tok) := by
      simp [str, stripPre]
    simp only [pageMarkerTok, hdrop, tryPre, hage, hp, hdead, hpg, hpd, htail]

/-- C2: refuted by the code: normalize_title has no schedule-detection
step, so a title with a word-boundary schedule reference is not turned
into an Sch_ label; the value normalize_title produces on the exact
input Schedule A is Schedule_A, not Sch_A. -/
theorem normalize_schedule_a_not_abbreviated :
    normalize_title (str "Schedule A") = str "Schedule_A" ∧
    ¬ normalize_title (str "Schedule A") = str "Sch_A" := by
  constructor <;> decide

/-- C2 (amended): the normalizer performs no schedule detection: any title
whose lower-cased, stripped, dash-standardised text does not match the
page-marker pattern -- in particular one containing a schedule reference
such as Schedule A -- is only sanitised generically by
normalize_title_basic, so normalize_title of Schedule A is Schedule_A. -/
theorem normalize_no_schedule_detection :
    (∀ title : Str,
        pageMarkerTok ((dashFix (stripCh title)).map Char.toLower) = none →
        normalize_title title = normalize_title_basic (dashFix (stripCh title)))
    ∧ normalize_title (str "Schedule A") = str "Schedule_A"
    ∧ normalize_title (str "Schedule NEC") = str "Schedule_NEC" := by
  refine ⟨fun title h => ?_, by decide, by decide⟩
  simp only [normalize_title, h]

/-- C3: every title whose prepared text (stripped, dash-standardised,
lower-cased) is exactly a prefix p, page, pg or p-dot followed by optional
whitespace and a token of digits or of roman letters normalizes to P
followed by the parsed digit value or the decoded roman value; in
particular Page 2, Pg II and P. 2 all normalize to P2, and normalizing
P2 again yields P2. -/
theorem page_marker_normalization :
    (∀ title pre ws tok : Str,
        (pre = str "p" ∨ pre = str "page" ∨ pre = str "pg" ∨ pre = str "p.") →
        ws.all isSpace = true → tok ≠ [] →
        (tok.all Char.isDigit = true ∨ tok.all isRoman = true) →
        (dashFix (stripCh title)).map Char.toLower = pre ++ (ws ++ tok) →
        normalize_title title =
          (if tok.all Char.isDigit then str "P" ++ str (Nat.repr (digitsVal tok))
           else str "P" ++ str (Int.repr (roman_to_int tok))))
    ∧ normalize_title (str "Page 2") = str "P2"
    ∧ normalize_title (str "Pg II") = str "P2"
    ∧ normalize_title (str "P. 2") = str "P2"
    ∧ normalize_title (normalize_title (str "Page 2")) = normalize_title (str "Page 2") := by
  refine ⟨fun title pre ws tok hpre hws hne htok heq => ?_,
    by decide, by decide, by decide, by decide⟩
  simp only [normalize_title, heq, pageMarkerTok_complete pre ws tok hpre hws hne htok]

/-- C1: refuted by the code: on the two-page outline with raw titles
Schedule A (page 1, depth 0) and Page 2 (page 2, depth 0), the pipeline of
normalization, best-label selection, reconstruction and flags does not
produce the labels Sch_A_P1 and Sch_A_P2 claimed (the normalizer has no
schedule-abbreviation step). -/
theorem reconstruct_example_not_sch :
    ¬ ((buildPages 2 (str "UltraTax")
          [⟨normalize_title (str "Schedule A"), 1, 0⟩,
           ⟨normalize_title (str "Page 2"), 2, 0⟩]
          [⟨str "Schedule A", 1, 0⟩, ⟨str "Page 2", 2, 0⟩]).map (fun r => r.label)
        = [str "Sch_A_P1", str "Sch_A_P2"]) := by
  decide

/-- C1 (amended): on that outline the pipeline produces page 1 label
Schedule_A_P1 and page 2 label Schedule_A_P2 (Schedule A sanitises to
Schedule_A, which seeds the sequence), and both pages get
multipage = true. -/
theorem reconstruct_example_labels :
    (buildPages 2 (str "UltraTax")
        [⟨normalize_title (str "Schedule A"), 1, 0⟩,
         ⟨normalize_title (str "Page 2"), 2, 0⟩]
        [⟨str "Schedule A", 1, 0⟩, ⟨str "Page 2", 2, 0⟩]).map
        (fun r => (r.label, r.multipage))
      = [(str "Schedule_A_P1", true), (str "Schedule_A_P2", true)] := by
  decide

/-- C5: a record whose family differs from the bookmark family passes
through the reconstruction pass completely unchanged, and the step on
such a record hands the running prefix on unchanged; in particular an
Other page between Sch_A_P1 and P2 neither changes nor breaks the
sequence, and P2 still becomes Sch_A_P2. -/
theorem reconstruct_family_frame :
    (∀ (fam : Str) (pfx0 : Option Str) (pages : List PageRecord),
        List.Forall₂ (fun a b => a.family ≠ fam → b = a)
          pages (reconstructPass fam pfx0 pages))
    ∧ (∀ (fam : Str) (pfx0 : Option Str) (e : PageRecord),
        e.family ≠ fam → stepRec fam pfx0 e = (e, pfx0))
    ∧ reconstructPass (str "UltraTax") none
        [ ⟨1, str "UltraTax", str "Sch_A_P1", str "Sch_A_P1", false, false, str "Schedule A"⟩,
          ⟨2, str "Other", str "Other", str "Other", false, false, str "Other"⟩,
          ⟨3, str "UltraTax", str "P2", str "P2", false, false, str "Page 2"⟩ ]
      = [ ⟨1, str "UltraTax", str "Sch_A_P1", str "Sch_A_P1", false, false, str "Schedule A"⟩,
          ⟨2, str "Other", str "Other", str "Other", false, false, str "Other"⟩,
          ⟨3, str "UltraTax", str "Sch_A_P2", str "Sch_A_P2", false, false, str "Page 2"⟩ ] := by
  refine ⟨?_, ?_, by decide⟩
  · intro fam pfx0 pages
    induction pages generalizing pfx0 with
    | nil => exact List.Forall₂.nil
    | cons e es ih =>
      refine List.Forall₂.cons (fun h => ?_) (ih _)
      simp [stepRec, h]
  · intro fam pfx0 e h
    simp [stepRec, h]

lemma forall2_map_self {α : Type} {R : α → α → Prop} (f : α → α)
    (h : ∀ a, R a (f a)) : ∀ l : List α, List.Forall₂ R l (l.map f)
  | [] => List.Forall₂.nil
  | a :: l => List.Forall₂.cons (h a) (forall2_map_self f h l)

lemma forall2_refl {α : Type} {R : α → α → Prop} (h : ∀ a, R a a) :
    ∀ l : List α, List.Forall₂ R l l
  | [] => List.Forall₂.nil
  | a :: l => List.Forall₂.cons (h a) (forall2_refl h l)

lemma forall2_comp {α : Type} {R1 R2 R3 : α → α → Prop}
    (h : ∀ a b c, R1 a b → R2 b c → R3 a c) :
    ∀ {l m n : List α}, List.Forall₂ R1 l m → List.Forall₂ R2 m n →
      List.Forall₂ R3 l n := by
  intro l m n h1 h2
  induction h1 generalizing n with
  | nil => cases h2; exact List.Forall₂.nil
  | cons hab t ih =>
    cases h2 with
    | cons hbc t2 => exact List.Forall₂.cons (h _ _ _ hab hbc) (ih t2)

lemma multipage_map_label (p : List PageRecord) :
    (apply_multipage_flags p).map (fun r => r.label) = p.map (fun r => r.label) := by
  simp only [apply_multipage_flags, List.map_map]
  rfl

lemma multipage_map_flag (p : List PageRecord) :
    (apply_multipage_flags p).map (fun r => r.multipage) =
      (p.map fun r => r.label).map (multipageFlagL (p.map fun r => r.label)) := by
  simp only [apply_multipage_flags, List.map_map]
  rfl

/-- C6: the multipage recompute pass writes only the multipage field of
each record, it computes the flags from the current label strings alone
(the flag of a record is multipageFlagL of the label list at its label:
true exactly when the label splits as base_P n and at least two labels
share that base), and it is idempotent. -/
theorem multipage_pass_only_flags_idempotent :
    (∀ pages : List PageRecord,
        List.Forall₂ (fun a b =>
          b.page = a.page ∧ b.family = a.family ∧ b.label = a.label ∧
          b.auto_label = a.auto_label ∧ b.updated_label = a.updated_label ∧
          b.raw_label = a.raw_label ∧
          b.multipage = multipageFlagL (pages.map fun r => r.label) a.label)
        pages (apply_multipage_flags pages))
    ∧ (∀ p1 p2 : List PageRecord,
        p1.map (fun r => r.label) = p2.map (fun r => r.label) →
        (apply_multipage_flags p1).map (fun r => r.multipage) =
          (apply_multipage_flags p2).map (fun r => r.multipage))
    ∧ (∀ pages : List PageRecord,
        apply_multipage_flags (apply_multipage_flags pages) = apply_multipage_flags pages)
    ∧ (apply_multipage_flags
        [ ⟨1, str "U", str "A_P1", str "A_P1", false, false, str "r"⟩,
          ⟨2, str "U", str "A_P2", str "A_P2", false, true, str "r"⟩,
          ⟨3, str "U", str "B_P1", str "B_P1", false, true, str "r"⟩ ]).map
        (fun r => r.multipage) = [true, true, false] := by
  refine ⟨?_, ?_, ?_, by decide⟩
  · intro pages
    exact forall2_map_self _ (fun a => ⟨rfl, rfl, rfl, rfl, rfl, rfl, rfl⟩) pages
  · intro p1 p2 h
    rw [multipage_map_flag, multipage_map_flag, h]
  · intro pages
    show apply_multipage_flags (apply_multipage_flags pages) = apply_multipage_flags pages
    conv_lhs => rw [apply_multipage_flags, multipage_map_label]
    rw [apply_multipage_flags, List.map_map]
    refine List.map_congr_left ?_
    intro e _
    cases e
    rfl

lemma updateFirst_frame (pno : Nat) (lbl : Str) :
    ∀ pages : List PageRecord,
      List.Forall₂ (fun a b =>
        b.page = a.page ∧ b.family = a.family ∧ b.auto_label = a.auto_label ∧
        b.raw_label = a.raw_label ∧
        ((b.label = a.label ∧ b.updated_label = a.updated_label) ∨
          (a.page = pno ∧ b.label = lbl ∧ b.updated_label = true)))
      pages (updateFirstLabel pno lbl pages) := by
  intro pages
  induction pages with
  | nil => exact List.Forall₂.nil
  | cons e es ih =>
    by_cases hp : e.page = pno
    · simp only [updateFirstLabel, if_pos hp]
      refine List.Forall₂.cons ⟨rfl, rfl, rfl, rfl, Or.inr ⟨hp, rfl, rfl⟩⟩ ?_
      exact forall2_refl (fun a => ⟨rfl, rfl, rfl, rfl, Or.inl ⟨rfl, rfl⟩⟩) es
    · simp only [updateFirstLabel, if_neg hp]
      exact List.Forall₂.cons ⟨rfl, rfl, rfl, rfl, Or.inl ⟨rfl, rfl⟩⟩ ih

/-- C7: a single-page label edit through api_update_label never rewrites
any auto_label and leaves every field except the edited record's label and
updated_label and the recomputed multipage flags unchanged: each output
record keeps the input record's page, family, auto_label and raw_label,
and keeps its label and updated_label too unless it is the record edited
at the requested page, which gets the new label and updated_label true.
The concrete instance edits page 2 and recomputes the flags. -/
theorem update_label_preserves_auto :
    (∀ (pages : List PageRecord) (pno : Nat) (lbl : Str),
        List.Forall₂ (fun a b =>
          b.auto_label = a.auto_label ∧ b.page = a.page ∧ b.family = a.family ∧
          b.raw_label = a.raw_label ∧
          ((b.label = a.label ∧ b.updated_label = a.updated_label) ∨
            (a.page = pno ∧ b.label = lbl ∧ b.updated_label = true)))
        pages (api_update_label pages pno lbl))
    ∧ api_update_label
        [ ⟨1, str "U", str "A_P1", str "A_P1", false, true, str "r"⟩,
          ⟨2, str "U", str "P2", str "P2", false, false, str "s"⟩ ] 2 (str "A_P2")
      = [ ⟨1, str "U", str "A_P1", str "A_P1", false, true, str "r"⟩,
          ⟨2, str "U", str "A_P2", str "P2", true, true, str "s"⟩ ] := by
  refine ⟨?_, by decide⟩
  intro pages pno lbl
  have hrefl : List.Forall₂ (fun a b =>
      b.auto_label = a.auto_label ∧ b.page = a.page ∧ b.family = a.family ∧
      b.raw_label = a.raw_label ∧
      ((b.label = a.label ∧ b.updated_label = a.updated_label) ∨
        (a.page = pno ∧ b.label = lbl ∧ b.updated_label = true)))
      pages pages :=
    forall2_refl (fun a => ⟨rfl, rfl, rfl, rfl, Or.inl ⟨rfl, rfl⟩⟩) pages
  unfold api_update_label
  by_cases h0 : lbl = []
  · rw [if_pos h0]; exact hrefl
  · rw [if_neg h0]
    by_cases h1 : pages.all (fun e => !(e.page = pno : Bool)) = true
    · rw [if_pos h1]; exact hrefl
    · simp only [h1, if_neg, Bool.not_eq_true]
      have hflags : List.Forall₂ (fun a b =>
          b.page = a.page ∧ b.family = a.family ∧ b.label = a.label ∧
          b.auto_label = a.auto_label ∧ b.updated_label = a.updated_label ∧
          b.raw_label = a.raw_label)
          (updateFirstLabel pno lbl pages)
          (apply_multipage_flags (updateFirstLabel pno lbl pages)) :=
        forall2_map_self _ (fun a => ⟨rfl, rfl, rfl, rfl, rfl, rfl⟩) _
      refine forall2_comp ?_ (updateFirst_frame pno lbl pages) hflags
      rintro a b c ⟨hp, hf, ha, hr, hlab⟩ ⟨cp, cf, clab, cauto, cupd, craw⟩
      refine ⟨cauto.trans ha, cp.trans hp, cf.trans hf, craw.trans hr, ?_⟩
      rcases hlab with ⟨hl, hu⟩ | ⟨hpg, hl, hu⟩
      · exact Or.inl ⟨clab.trans hl, cupd.trans hu⟩
      · exact Or.inr ⟨hpg, clab.trans hl, cupd.trans hu⟩

lemma selected_inv (total : Nat) (fam : Str) (entries entriesRaw : List LabelEntry) :
    ∀ r ∈ selectedPages total fam entries entriesRaw,
      r.label = r.auto_label ∧ r.updated_label = false := by
  intro r hr
  simp only [selectedPages, List.mem_map] at hr
  obtain ⟨i, _, rfl⟩ := hr
  cases hb : bestForPage entries (i + 1) with
  | none => simp [hb, defaultRec]
  | some x => cases x with | mk lbl d => simp [hb]

lemma step_inv (fam : Str) (pfx0 : Option Str) (e : PageRecord)
    (h : e.label = e.auto_label ∧ e.updated_label = false) :
    (stepRec fam pfx0 e).1.label = (stepRec fam pfx0 e).1.auto_label ∧
      (stepRec fam pfx0 e).1.updated_label = false := by
  unfold stepRec
  by_cases h1 : e.family ≠ fam
  · simpa [h1] using h
  · rw [if_neg h1]
    cases hm : prefixedPageMatch e.label with
    | some x => simpa using h
    | none =>
      simp only []
      by_cases h2 : isBaseSection e.label = true
      · simp [h2, h.2]
      · rw [if_neg h2]
        cases pfx0 with
        | none => simpa using h
        | some pre =>
          by_cases h3 : (isPageSuffix e.label && !pre.isEmpty) = true
          · simp [h3, h.2]
          · simp only [h3, Bool.false_eq_true, if_false]
            simpa using h

lemma recon_inv (fam : Str) :
    ∀ (pages : List PageRecord) (pfx0 : Option Str),
      (∀ r ∈ pages, r.label = r.auto_label ∧ r.updated_label = false) →
      ∀ r ∈ reconstructPass fam pfx0 pages,
        r.label = r.auto_label ∧ r.updated_label = false := by
  intro pages
  induction pages with
  | nil => intro _ _ r hr; exact absurd hr (by simp [reconstructPass])
  | cons e es ih =>
    intro pfx0 hall r hr
    rw [reconstructPass] at hr
    rcases List.mem_cons.mp hr with rfl | hr
    · exact step_inv fam pfx0 e (hall e (List.mem_cons_self e es))
    · exact ih _ (fun x hx => hall x (List.mem_cons_of_mem e hx)) r hr

lemma flags_inv (pages : List PageRecord)
    (h : ∀ r ∈ pages, r.label = r.auto_label ∧ r.updated_label = false) :
    ∀ r ∈ apply_multipage_flags pages,
      r.label = r.auto_label ∧ r.updated_label = false := by
  intro r hr
  simp only [apply_multipage_flags, List.mem_map] at hr
  obtain ⟨e, he, rfl⟩ := hr
  simpa using h e he

/-- C10: straight out of extraction (sentinel initialisation, best-label
selection, reconstruction, multipage flags), before any human edit, every
page record satisfies label = auto_label and updated_label = false; shown
on a concrete run as well. -/
theorem extraction_labels_fresh :
    (∀ (total : Nat) (fam : Str) (entries entriesRaw : List LabelEntry),
        ∀ r ∈ buildPages total fam entries entriesRaw,
          r.label = r.auto_label ∧ r.updated_label = false)
    ∧ (buildPages 2 (str "UW") [⟨str "X", 1, 0⟩] [⟨str "X", 1, 0⟩]).map
        (fun r => (r.label, r.auto_label, r.updated_label))
      = [(str "X_P1", str "X_P1", false), (str "Other", str "Other", false)] := by
  refine ⟨?_, by decide⟩
  intro total fam entries entriesRaw r hr
  exact flags_inv _
    (recon_inv fam _ none (selected_inv total fam entries entriesRaw)) r hr

lemma foldl_bestStep_eq (p : Nat) :
    ∀ (es : List LabelEntry) (acc : Option (Str × Nat)),
      es.foldl (bestStep p) acc = mergeBest acc (lastBest p es) := by
  intro es
  induction es with
  | nil =>
    intro acc
    cases acc with
    | none => rfl
    | some x => rfl
  | cons e es ih =>
    intro acc
    rw [List.foldl_cons, ih]
    by_cases hp : e.page = p
    · cases hl : lastBest p es with
      | none =>
        cases acc with
        | none => simp [bestStep, hp, lastBest, hl, mergeBest]
        | some a =>
          obtain ⟨l0, d0⟩ := a
          by_cases hd : d0 ≤ e.depth <;>
            simp [bestStep, hp, lastBest, hl, mergeBest, hd]
      | some r =>
        obtain ⟨l, d⟩ := r
        by_cases hde : d < e.depth
        · cases acc with
          | none =>
            simp [bestStep, hp, lastBest, hl, mergeBest, hde, Nat.not_le.mpr hde]
          | some a =>
            obtain ⟨l0, d0⟩ := a
            by_cases hd : d0 ≤ e.depth
            · simp [bestStep, hp, lastBest, hl, mergeBest, hde, hd, Nat.not_le.mpr hde]
            · have h1 : ¬ d0 ≤ d := by omega
              simp [bestStep, hp, lastBest, hl, mergeBest, hde, hd, h1]
        · have hed : e.depth ≤ d := Nat.not_lt.mp hde
          cases acc with
          | none => simp [bestStep, hp, lastBest, hl, mergeBest, hde, hed]
          | some a =>
            obtain ⟨l0, d0⟩ := a
            by_cases hd : d0 ≤ e.depth
            · have h2 : d0 ≤ d := le_trans hd hed
              simp [bestStep, hp, lastBest, hl, mergeBest, hde, hd, hed, h2]
            · simp [bestStep, hp, lastBest, hl, mergeBest, hde, hd]
    · cases hl : lastBest p es with
      | none => cases acc <;> simp [bestStep, hp, lastBest, hl, mergeBest]
      | some r =>
        obtain ⟨l, d⟩ := r
        cases acc <;> simp [bestStep, hp, lastBest, hl, mergeBest]

lemma bestForPage_eq_lastBest (entries : List LabelEntry) (p : Nat) :
    bestForPage entries p = lastBest p entries := by
  rw [bestForPage, foldl_bestStep_eq]
  cases lastBest p entries with
  | none => rfl
  | some x => rfl

lemma lastBest_none (p : Nat) :
    ∀ es : List LabelEntry, lastBest p es = none → ∀ e ∈ es, ¬ e.page = p := by
  intro es
  induction es with
  | nil => intro _ e he; cases he
  | cons e es ih =>
    intro h f hf
    cases hl : lastBest p es with
    | some r =>
      obtain ⟨l, d⟩ := r
      simp only [lastBest, hl] at h
      split at h <;> simp at h
    | none =>
      simp only [lastBest, hl] at h
      rcases List.mem_cons.mp hf with rfl | hf'
      · intro hp
        rw [if_pos hp] at h
        exact absurd h (by simp)
      · exact ih hl f hf'

lemma lastBest_le (p : Nat) :
    ∀ (es : List LabelEntry) (l : Str) (d : Nat),
      lastBest p es = some (l, d) → ∀ e ∈ es, e.page = p → e.depth ≤ d := by
  intro es
  induction es with
  | nil => intro l d h; cases h
  | cons e es ih =>
    intro l d h f hf hfp
    cases hl : lastBest p es with
    | none =>
      simp only [lastBest, hl] at h
      rcases List.mem_cons.mp hf with rfl | hf'
      · rw [if_pos hfp] at h
        simp only [Option.some.injEq, Prod.mk.injEq] at h
        omega
      · exact absurd hfp (lastBest_none p es hl f hf')
    | some r =>
      obtain ⟨l0, d0⟩ := r
      simp only [lastBest, hl] at h
      by_cases hc : e.page = p ∧ d0 < e.depth
      · rw [if_pos hc] at h
        simp only [Option.some.injEq, Prod.mk.injEq] at h
        obtain ⟨h1, h2⟩ := h
        rcases List.mem_cons.mp hf with rfl | hf'
        · omega
        · have := ih l0 d0 hl f hf' hfp
          omega
      · rw [if_neg hc] at h
        simp only [Option.some.injEq, Prod.mk.injEq] at h
        obtain ⟨h1, h2⟩ := h
        rcases List.mem_cons.mp hf with rfl | hf'
        · have : ¬ d0 < f.depth := fun hlt => hc ⟨hfp, hlt⟩
          omega
        · have := ih l0 d0 hl f hf' hfp
          omega

lemma lastBest_mem (p : Nat) :
    ∀ (es : List LabelEntry) (l : Str) (d : Nat),
      lastBest p es = some (l, d) → (⟨l, p, d⟩ : LabelEntry) ∈ es := by
  intro es
  induction es with
  | nil => intro l d h; cases h
  | cons e es ih =>
    intro l d h
    obtain ⟨el, ep, ed⟩ := e
    cases hl : lastBest p es with
    | none =>
      simp only [lastBest, hl] at h
      by_cases hp : ep = p
      · rw [if_pos hp] at h
        simp only [Option.some.injEq, Prod.mk.injEq] at h
        obtain ⟨h1, h2⟩ := h
        simp [h1, h2, hp]
      · rw [if_neg hp] at h
        exact absurd h (by simp)
    | some r =>
      obtain ⟨l0, d0⟩ := r
      simp only [lastBest, hl] at h
      by_cases hc : ep = p ∧ d0 < ed
      · rw [if_pos hc] at h
        simp only [Option.some.injEq, Prod.mk.injEq] at h
        obtain ⟨h1, h2⟩ := h
        simp [h1, h2, hc.1]
      · rw [if_neg hc] at h
        simp only [Option.some.injEq, Prod.mk.injEq] at h
        obtain ⟨h1, h2⟩ := h
        subst h1; subst h2
        exact List.mem_cons_of_mem _ (ih _ _ hl)

lemma lastBest_sound (p : Nat) :
    ∀ (es : List LabelEntry) (l : Str) (d : Nat),
      lastBest p es = some (l, d) →
      ∃ es₁ es₂, es = es₁ ++ ⟨l, p, d⟩ :: es₂ ∧
        (∀ e ∈ es₁, e.page = p → e.depth ≤ d) ∧
        (∀ e ∈ es₂, e.page = p → e.depth < d) := by
  intro es
  induction es with
  | nil => intro l d h; cases h
  | cons e es ih =>
    intro l d h
    obtain ⟨el, ep, ed⟩ := e
    cases hl : lastBest p es with
    | none =>
      simp only [lastBest, hl] at h
      by_cases hp : ep = p
      · rw [if_pos hp] at h
        simp only [Option.some.injEq, Prod.mk.injEq] at h
        obtain ⟨h1, h2⟩ := h
        refine ⟨[], es, by simp [h1, h2, hp], by simp, ?_⟩
        intro f hf hfp
        exact absurd hfp (lastBest_none p es hl f hf)
      · rw [if_neg hp] at h
        exact absurd h (by simp)
    | some r =>
      obtain ⟨l0, d0⟩ := r
      simp only [lastBest, hl] at h
      by_cases hc : ep = p ∧ d0 < ed
      · rw [if_pos hc] at h
        simp only [Option.some.injEq, Prod.mk.injEq] at h
        obtain ⟨h1, h2⟩ := h
        obtain ⟨hp, hlt⟩ := hc
        refine ⟨[], es, by simp [h1, h2, hp], by simp, ?_⟩
        intro f hf hfp
        have := lastBest_le p es l0 d0 hl f hf hfp
        omega
      · rw [if_neg hc] at h
        simp only [Option.some.injEq, Prod.mk.injEq] at h
        obtain ⟨h1, h2⟩ := h
        obtain ⟨f1, f2, heq, hb, ha⟩ := ih l d (by rw [hl, h1, h2])
        refine ⟨⟨el, ep, ed⟩ :: f1, f2, by rw [List.cons_append, heq], ?_, ha⟩
        intro f hf hfp
        rcases List.mem_cons.mp hf with rfl | hf'
        · have hne : ¬ d0 < ed := fun hh => hc ⟨hfp, hh⟩
          show ed ≤ d
          omega
        · exact hb f hf' hfp

lemma lastBest_complete (p : Nat) :
    ∀ (es₁ : List LabelEntry) (l : Str) (d : Nat) (es₂ : List LabelEntry),
      (∀ e ∈ es₁, e.page = p → e.depth ≤ d) →
      (∀ e ∈ es₂, e.page = p → e.depth < d) →
      lastBest p (es₁ ++ ⟨l, p, d⟩ :: es₂) = some (l, d) := by
  intro es₁
  induction es₁ with
  | nil =>
    intro l d es₂ _ ha
    rw [List.nil_append]
    cases hl : lastBest p es₂ with
    | none =>
      simp only [lastBest, hl]
      simp
    | some r =>
      obtain ⟨l0, d0⟩ := r
      have hmem := lastBest_mem p es₂ l0 d0 hl
      have hlt : d0 < d := ha _ hmem rfl
      simp only [lastBest, hl]
      simp [hlt]
  | cons e es₁ ih =>
    intro l d es₂ hb ha
    obtain ⟨el, ep, ed⟩ := e
    have hrest := ih l d es₂ (fun f hf => hb f (List.mem_cons_of_mem _ hf)) ha
    rw [List.cons_append]
    simp only [lastBest, hrest]
    have hne : ¬ (ep = p ∧ d < ed) := by
      rintro ⟨hp, hlt⟩
      have hle : ed ≤ d := hb _ (List.mem_cons_self _ _) hp
      omega
    rw [if_neg hne]

/-- C4: the best-label selection, applied to any entry stream (the source
runs it once on the normalized stream and once on the raw stream), picks
for each page exactly the entry for that page of greatest depth, with the
last such entry in sequence order winning a depth tie: the selection
yields (l, d) at page p precisely when the entry list splits around an
entry with label l, page p and depth d such that every earlier entry for p
has depth at most d and every later entry for p has depth strictly below
d. The two instances show the deeper entry beating an earlier shallower
one on the same page, and the later entry winning an exact tie. -/
theorem best_label_per_page_last_deepest :
    (∀ (entries : List LabelEntry) (p : Nat) (l : Str) (d : Nat),
        bestForPage entries p = some (l, d) ↔
          ∃ es₁ es₂, entries = es₁ ++ ⟨l, p, d⟩ :: es₂ ∧
            (∀ e ∈ es₁, e.page = p → e.depth ≤ d) ∧
            (∀ e ∈ es₂, e.page = p → e.depth < d))
    ∧ bestForPage [⟨str "Sch_A", 1, 0⟩, ⟨str "P1", 1, 1⟩] 1 = some (str "P1", 1)
    ∧ bestForPage [⟨str "A", 1, 0⟩, ⟨str "B", 1, 0⟩] 1 = some (str "B", 0) := by
  refine ⟨?_, by decide, by decide⟩
  intro entries p l d
  rw [bestForPage_eq_lastBest]
  constructor
  · exact lastBest_sound p entries l d
  · rintro ⟨es₁, es₂, rfl, hb, ha⟩
    exact lastBest_complete p es₁ l d es₂ hb ha
